import Mathlib

/-!
Verification of the fractal-xplorer escape-time rendering core.

The C++ sources are shallowly embedded: `double` becomes `ℝ`, `int`
iteration counters become `ℕ` (they are non-negative at every call site),
and `int` quantities that may be negative (palette offsets, lookup
indices) become `ℤ`.  Loops become fuel-indexed recursions, where the
fuel is the number of loop iterations that remain.
-/

namespace Fractal

/-- Squared magnitude `zr*zr + zi*zi`, as computed at the top of every
iteration loop in `fractal.hpp` and `cpu_renderer_avx.cpp`. -/
def mag2 (z : ℝ × ℝ) : ℝ := z.1 * z.1 + z.2 * z.2

/-- The orbit of a starting point under an update rule: `fOrbit f z k`
is `z` after `k` applications of `f`. -/
def fOrbit (f : ℝ × ℝ → ℝ × ℝ) (z : ℝ × ℝ) (k : ℕ) : ℝ × ℝ := f^[k] z

/-- Smooth escape value computed at the escape branch of every scalar
kernel (`fractal.hpp`): `log_zn = log(m2) * 0.5`,
`nu = log(log_zn / log_n) / log_n`, result `max(0, i + 1 - nu)`. -/
noncomputable def smoothVal (logn : ℝ) (i : ℕ) (m2 : ℝ) : ℝ :=
  max 0 ((i : ℝ) + 1 - Real.log (Real.log m2 * 0.5 / logn) / logn)

/-- The shared scalar iteration loop of `scalar_kernel`,
`scalar_multibrot_kernel` and `scalar_multibrot_slow_kernel`
(`fractal.hpp`): `while (i < max_iter) { if (m2 > 4) return smooth;
z = f(z); ++i; }  return max_iter;`.  `i` counts completed iterations
and `fuel = max_iter - i` is the number of loop entries left, so when
the fuel runs out the returned `i` equals `max_iter`. -/
noncomputable def scalarAux (f : ℝ × ℝ → ℝ × ℝ) (logn : ℝ) : ℕ → ℕ → ℝ × ℝ → ℝ
  | 0, i, _ => (i : ℝ)
  | fuel + 1, i, z =>
      if mag2 z > 4 then smoothVal logn i (mag2 z)
      else scalarAux f logn fuel (i + 1) (f z)

/-- One z-update of the degree-2 template `scalar_kernel<IsJulia,
IsBurningShip, IsMandelbar, AbsRe, AbsIm>` (`fractal.hpp`): Burning Ship
takes `|2 zr zi|` on the imaginary part, the AbsRe/AbsIm variants rectify
the squared components, and Mandelbar negates the imaginary part. -/
def quadStep (isBurningShip isMandelbar absRe absIm : Bool) (c z : ℝ × ℝ) : ℝ × ℝ :=
  let zr := z.1
  let zi := z.2
  let zr2 := zr * zr
  let zi2 := zi * zi
  if isBurningShip then
    (zr2 - zi2 + c.1, |2 * zr * zi| + c.2)
  else if absRe || absIm then
    ((if absRe then |zr2 - zi2| else zr2 - zi2) + c.1,
     (if absIm then |2 * zr * zi| else 2 * zr * zi) + c.2)
  else
    (zr2 - zi2 + c.1, (if isMandelbar then -(2 * zr * zi) else 2 * zr * zi) + c.2)

/-- `z^n` by repeated complex multiplication: the inner
`for (k = 1; k < n; ++k)` loop of `scalar_multibrot_kernel` and
`avx_multibrot_kernel`; `powRep z m` performs `m` multiplications, the
call sites use `m = n - 1`. -/
def powRep (z : ℝ × ℝ) : ℕ → ℝ × ℝ
  | 0 => z
  | k + 1 =>
      let p := powRep z k
      (p.1 * z.1 - p.2 * z.2, p.1 * z.2 + p.2 * z.1)

/-- One z-update of `scalar_multibrot_kernel<IsJulia, IsMandelbar>`
(`fractal.hpp`): `z^n` by repeated multiplication, imaginary part negated
for the Mandelbar variant, then `+ c`. -/
def multibrotStep (isMandelbar : Bool) (n : ℕ) (c z : ℝ × ℝ) : ℝ × ℝ :=
  let p := powRep z (n - 1)
  (p.1 + c.1, (if isMandelbar then -p.2 else p.2) + c.2)

/-- `atan2(y, x)` modelled by the principal complex argument, which has
the same value and quadrant conventions (and `atan2 0 0 = 0`). -/
noncomputable def atan2 (y x : ℝ) : ℝ := Complex.arg ⟨x, y⟩

/-- One z-update of `scalar_multibrot_slow_kernel<IsJulia>`
(`fractal.hpp`): polar form `z^n = exp(n·log(m2)·0.5)·(cos nθ, sin nθ)`,
with the `m2 == 0` branch jumping directly to `c`. -/
noncomputable def slowStep (n : ℝ) (c z : ℝ × ℝ) : ℝ × ℝ :=
  let m2 := mag2 z
  if m2 = 0 then c
  else
    let rn := Real.exp (n * Real.log m2 * 0.5)
    let th := atan2 z.2 z.1
    (rn * Real.cos (n * th) + c.1, rn * Real.sin (n * th) + c.2)

/-- The degree-2 scalar kernel template `scalar_kernel` of `fractal.hpp`
(lines 549-582): seeding selects `z0 = pixel, c = parameter` in Julia
mode and `z0 = 0, c = pixel` otherwise; the smooth base is `log 2`. -/
noncomputable def scalar_kernel (isJulia isBurningShip isMandelbar absRe absIm : Bool)
    (re im cr ci : ℝ) (max_iter : ℕ) : ℝ :=
  let z0 : ℝ × ℝ := if isJulia then (re, im) else (0, 0)
  let c : ℝ × ℝ := if isJulia then (cr, ci) else (re, im)
  scalarAux (quadStep isBurningShip isMandelbar absRe absIm c) (Real.log 2) max_iter 0 z0

/-- The integer-exponent scalar kernel template `scalar_multibrot_kernel`
of `fractal.hpp` (lines 585-613); the smooth base is `log n`. -/
noncomputable def scalar_multibrot_kernel (isJulia isMandelbar : Bool)
    (re im cr ci : ℝ) (max_iter n : ℕ) : ℝ :=
  let z0 : ℝ × ℝ := if isJulia then (re, im) else (0, 0)
  let c : ℝ × ℝ := if isJulia then (cr, ci) else (re, im)
  scalarAux (multibrotStep isMandelbar n c) (Real.log n) max_iter 0 z0

/-- The real-exponent scalar kernel template
`scalar_multibrot_slow_kernel` of `fractal.hpp` (lines 616-643). -/
noncomputable def scalar_multibrot_slow_kernel (isJulia : Bool)
    (re im cr ci : ℝ) (max_iter : ℕ) (n : ℝ) : ℝ :=
  let z0 : ℝ × ℝ := if isJulia then (re, im) else (0, 0)
  let c : ℝ × ℝ := if isJulia then (cr, ci) else (re, im)
  scalarAux (slowStep n c) (Real.log n) max_iter 0 z0

lemma scalarAux_of_not_escape (f : ℝ × ℝ → ℝ × ℝ) (logn : ℝ) (i fuel : ℕ) (z : ℝ × ℝ)
    (h : ¬ mag2 z > 4) :
    scalarAux f logn (fuel + 1) i z = scalarAux f logn fuel (i + 1) (f z) := by
  simp [scalarAux, h]

lemma scalarAux_of_escape (f : ℝ × ℝ → ℝ × ℝ) (logn : ℝ) (i fuel : ℕ) (z : ℝ × ℝ)
    (h : mag2 z > 4) :
    scalarAux f logn (fuel + 1) i z = smoothVal logn i (mag2 z) := by
  simp [scalarAux, h]

/-- If no iterate of `z` escapes during `fuel` remaining checks, the
scalar loop exhausts its fuel and returns `i + fuel`. -/
lemma scalarAux_interior (f : ℝ × ℝ → ℝ × ℝ) (logn : ℝ) :
    ∀ (fuel i : ℕ) (z : ℝ × ℝ), (∀ j < fuel, ¬ mag2 (fOrbit f z j) > 4) →
      scalarAux f logn fuel i z = ((i + fuel : ℕ) : ℝ) := by
  intro fuel
  induction fuel with
  | zero => intro i z _; simp [scalarAux]
  | succ m ih =>
      intro i z h
      have h0 : ¬ mag2 z > 4 := by
        have := h 0 (Nat.succ_pos m)
        simpa [fOrbit] using this
      rw [scalarAux_of_not_escape f logn i m z h0]
      have hrest : ∀ j < m, ¬ mag2 (fOrbit f (f z) j) > 4 := by
        intro j hj
        have := h (j + 1) (by omega)
        simpa [fOrbit, Function.iterate_succ_apply] using this
      rw [ih (i + 1) (f z) hrest]
      push_cast
      ring

/-- Per-lane state of the AVX kernels (`cpu_renderer_avx.cpp`): the
current `z`, the still-active flag, the accumulated completed-iteration
counter `iters_d`, the write-once escape magnitude `final_r2`
(initialised to 4.0), and the Lyapunov accumulators `log_deriv_sum`
and `lyap_n_iters`. -/
structure Lane where
  zr : ℝ
  zi : ℝ
  active : Bool
  iters : ℝ
  finalR2 : ℝ
  lyapSum : ℝ
  lyapCnt : ℝ

/-- One iteration of the AVX kernel loop, restricted to a single lane
(`cpu_renderer_avx.cpp` lines 62-122, 217-258, 345-379; the three kernels
share this structure and differ only in the z-update `f` and the
Lyapunov constants).  In source order: the Lyapunov accumulation (only
when `ComputeLyapunov`, only for active lanes with `mag2 > 1e-200`,
with the log argument clamped below by `1e-300`), then the just-escaped
mask, the write-once `final_r2` blend, the removal of escaped lanes from
the active mask, and finally the z-update, freeze and counter increment
for lanes still active. -/
noncomputable def laneStep (f : ℝ × ℝ → ℝ × ℝ) (lyap : Bool) (logn nm1Half : ℝ)
    (s : Lane) : Lane :=
  let m2 := s.zr * s.zr + s.zi * s.zi
  let acc : Prop := lyap = true ∧ s.active = true ∧ m2 > 1e-200
  let lyapSum := if acc then s.lyapSum + (nm1Half * Real.log (max m2 1e-300) + logn)
                 else s.lyapSum
  let lyapCnt := if acc then s.lyapCnt + 1 else s.lyapCnt
  let justEsc : Prop := s.active = true ∧ m2 > 4
  let finalR2 := if justEsc then m2 else s.finalR2
  let active : Bool := if justEsc then false else s.active
  let z : ℝ × ℝ := if active = true then f (s.zr, s.zi) else (s.zr, s.zi)
  let iters := if active = true then s.iters + 1 else s.iters
  ⟨z.1, z.2, active, iters, finalR2, lyapSum, lyapCnt⟩

/-- The AVX kernel loop run for `fuel` iterations on one lane.  The
source loop exits early once every lane of the vector has escaped; an
inactive lane is a fixed point of `laneStep` (`laneStep_inactive`), so
running the full `max_iter` iterations yields the same lane state as the
early-exiting loop. -/
noncomputable def laneRun (f : ℝ × ℝ → ℝ × ℝ) (lyap : Bool) (logn nm1Half : ℝ) :
    ℕ → Lane → Lane
  | 0, s => s
  | fuel + 1, s => laneRun f lyap logn nm1Half fuel (laneStep f lyap logn nm1Half s)

/-- Initial lane state of every AVX kernel: `z = z0`, all-true active
mask, zero iteration counter, `final_r2 = 4.0`, zero Lyapunov sums. -/
def laneInit (z : ℝ × ℝ) : Lane := ⟨z.1, z.2, true, 0, 4, 0, 0⟩

/-- Post-loop smooth coloring of the AVX kernels
(`cpu_renderer_avx.cpp` lines 124-137): `nu` is computed with
multiplication by `inv_log_n = 1/log n`, escaped lanes get
`max(0, iters + 1 - nu)` from their recorded magnitude, and lanes still
active receive `max_iter` through the final blend. -/
noncomputable def laneSmooth (logn : ℝ) (max_iter : ℕ) (s : Lane) : ℝ :=
  if s.active = true then (max_iter : ℝ)
  else max 0 (s.iters + 1 - Real.log (Real.log s.finalR2 * 0.5 * (1 / logn)) * (1 / logn))

/-- Post-loop Lyapunov output of the AVX kernels
(`cpu_renderer_avx.cpp` lines 139-143): `lambda = sum / max(count, 1)`. -/
noncomputable def laneLyap (s : Lane) : ℝ := s.lyapSum / max s.lyapCnt 1

/-- One z-update of the degree-2 AVX template `avx_kernel`
(`cpu_renderer_avx.cpp` lines 91-113), written with the operand order of
the intrinsics: Burning Ship uses `(|zr|+|zr|)*|zi|`, the Celtic/Buffalo
branch rectifies the squared components, Mandelbar computes
`ci - (zr+zr)*zi`. -/
def quadStepV (isBurningShip isMandelbar absRe absIm : Bool) (c z : ℝ × ℝ) : ℝ × ℝ :=
  let zr := z.1
  let zi := z.2
  if isBurningShip then
    (zr * zr + (c.1 - zi * zi), (|zr| + |zr|) * |zi| + c.2)
  else if absRe || absIm then
    let reRaw := zr * zr - zi * zi
    let imRaw := (zr + zr) * zi
    ((if absRe then |reRaw| else reRaw) + c.1, (if absIm then |imRaw| else imRaw) + c.2)
  else
    (zr * zr + (c.1 - zi * zi),
     if isMandelbar then c.2 - (zr + zr) * zi else (zr + zr) * zi + c.2)

/-- One z-update of `avx_multibrot_kernel` (`cpu_renderer_avx.cpp` lines
239-253): repeated complex multiplication, sign-bit flip of the imaginary
part for Mandelbar, then `+ c`. -/
def multibrotStepV (isMandelbar : Bool) (n : ℕ) (c z : ℝ × ℝ) : ℝ × ℝ :=
  let p := powRep z (n - 1)
  (p.1 + c.1, (if isMandelbar then -p.2 else p.2) + c.2)

/-- One z-update of `avx_multibrot_slow_kernel` (`cpu_renderer_avx.cpp`
lines 367-374), branch-free exactly like the SLEEF code (it has no
`m2 == 0` guard, unlike its scalar twin `scalar_multibrot_slow_kernel`).
This real-valued translation is exact only while `mag2 z > 0`, where
every machine quantity is finite: at `mag2 z = 0` the machine evaluation
leaves the reals (`log(0) = -inf`; a positive exponent then collapses
`z` to `c` like the scalar branch, a negative exponent poisons the lane
with inf/NaN so that it never escapes and returns the cap — see
`c2_slow_zero_divergence`).  Theorems about this step therefore carry a
nonzero-magnitude hypothesis on the iterates. -/
noncomputable def slowStepV (n : ℝ) (c z : ℝ × ℝ) : ℝ × ℝ :=
  let rn := Real.exp (n * (Real.log (mag2 z) * 0.5))
  let th := atan2 z.2 z.1
  (rn * Real.cos (n * th) + c.1, rn * Real.sin (n * th) + c.2)

/-- Lane `k` of the degree-2 AVX kernel `avx_kernel` applied to the
4-pixel group starting at `re0` with pixel spacing `scale`
(`cpu_renderer_avx.cpp` lines 19-144): lane `k` holds the pixel at
`re0 + k*scale`. -/
noncomputable def avx_kernel_lane (isJulia isBurningShip isMandelbar absRe absIm lyap : Bool)
    (re0 scale im : ℝ) (max_iter : ℕ) (c_re c_im : ℝ) (k : ℕ) : Lane :=
  let px := re0 + (k : ℝ) * scale
  let z0 : ℝ × ℝ := if isJulia then (px, im) else (0, 0)
  let c : ℝ × ℝ := if isJulia then (c_re, c_im) else (px, im)
  laneRun (quadStepV isBurningShip isMandelbar absRe absIm c) lyap (Real.log 2) 0.5
    max_iter (laneInit z0)

/-- Lane `k` of `avx_multibrot_kernel` (`cpu_renderer_avx.cpp` lines
179-280); Lyapunov constants `log n` and `(n-1)/2`. -/
noncomputable def avx_multibrot_lane (isJulia isMandelbar lyap : Bool)
    (re0 scale im : ℝ) (max_iter n : ℕ) (c_re c_im : ℝ) (k : ℕ) : Lane :=
  let px := re0 + (k : ℝ) * scale
  let z0 : ℝ × ℝ := if isJulia then (px, im) else (0, 0)
  let c : ℝ × ℝ := if isJulia then (c_re, c_im) else (px, im)
  laneRun (multibrotStepV isMandelbar n c) lyap (Real.log n) (((n : ℝ) - 1) / 2)
    max_iter (laneInit z0)

/-- Lane `k` of `avx_multibrot_slow_kernel` (`cpu_renderer_avx.cpp`
lines 305-398). -/
noncomputable def avx_multibrot_slow_lane (isJulia lyap : Bool)
    (re0 scale im : ℝ) (max_iter : ℕ) (n : ℝ) (c_re c_im : ℝ) (k : ℕ) : Lane :=
  let px := re0 + (k : ℝ) * scale
  let z0 : ℝ × ℝ := if isJulia then (px, im) else (0, 0)
  let c : ℝ × ℝ := if isJulia then (c_re, c_im) else (px, im)
  laneRun (slowStepV n c) lyap (Real.log n) ((n - 1) / 2) max_iter (laneInit z0)

/-- An inactive lane is a fixed point of the loop body: its `z`,
counter, recorded magnitude and Lyapunov accumulators are all frozen.
This justifies dropping the all-lanes-escaped early exit of the source
loop from the per-lane model. -/
lemma laneStep_inactive (f : ℝ × ℝ → ℝ × ℝ) (lyap : Bool) (logn nm1Half : ℝ)
    (s : Lane) (h : s.active = false) : laneStep f lyap logn nm1Half s = s := by
  cases s with
  | mk zr zi active iters finalR2 lyapSum lyapCnt =>
      cases active with
      | false => simp [laneStep]
      | true => simp at h

lemma laneRun_inactive (f : ℝ × ℝ → ℝ × ℝ) (lyap : Bool) (logn nm1Half : ℝ) :
    ∀ (fuel : ℕ) (s : Lane), s.active = false →
      laneRun f lyap logn nm1Half fuel s = s := by
  intro fuel
  induction fuel with
  | zero => intro s _; rfl
  | succ m ih =>
      intro s h
      show laneRun f lyap logn nm1Half m (laneStep f lyap logn nm1Half s) = s
      rw [laneStep_inactive f lyap logn nm1Half s h, ih s h]

/-- Behaviour of the loop body on an active, non-escaping lane. -/
lemma laneStep_active_noesc (f : ℝ × ℝ → ℝ × ℝ) (lyap : Bool) (logn nm1Half : ℝ)
    (i : ℕ) (z : ℝ × ℝ) (r2 ls lc : ℝ) (hesc : ¬ mag2 z > 4) :
    laneStep f lyap logn nm1Half ⟨z.1, z.2, true, (i : ℝ), r2, ls, lc⟩ =
      ⟨(f z).1, (f z).2, true, ((i + 1 : ℕ) : ℝ), r2,
        if lyap = true ∧ mag2 z > 1e-200 then
          ls + (nm1Half * Real.log (max (mag2 z) 1e-300) + logn) else ls,
        if lyap = true ∧ mag2 z > 1e-200 then lc + 1 else lc⟩ := by
  have h : ¬ z.1 * z.1 + z.2 * z.2 > 4 := hesc
  simp [laneStep, mag2, h]

/-- Behaviour of the loop body on an active lane that escapes now. -/
lemma laneStep_active_esc (f : ℝ × ℝ → ℝ × ℝ) (lyap : Bool) (logn nm1Half : ℝ)
    (i : ℕ) (z : ℝ × ℝ) (r2 ls lc : ℝ) (hesc : mag2 z > 4) :
    laneStep f lyap logn nm1Half ⟨z.1, z.2, true, (i : ℝ), r2, ls, lc⟩ =
      ⟨z.1, z.2, false, (i : ℝ), mag2 z,
        if lyap = true ∧ mag2 z > 1e-200 then
          ls + (nm1Half * Real.log (max (mag2 z) 1e-300) + logn) else ls,
        if lyap = true ∧ mag2 z > 1e-200 then lc + 1 else lc⟩ := by
  have h : z.1 * z.1 + z.2 * z.2 > 4 := hesc
  simp [laneStep, mag2, h]

/-- Scalar/vector loop equivalence over the reals: starting from an
active lane with `i` completed iterations and `i + fuel = K`, the AVX
lane loop followed by the AVX smooth post-processing computes exactly
the value of the scalar loop.  The recorded magnitude and Lyapunov
accumulators of the initial state are arbitrary because the smooth
output never reads them before they are overwritten. -/
lemma laneRun_smooth_eq (f : ℝ × ℝ → ℝ × ℝ) (lyap : Bool) (logn nm1Half : ℝ) (K : ℕ) :
    ∀ (fuel i : ℕ) (z : ℝ × ℝ) (r2 ls lc : ℝ), i + fuel = K →
      laneSmooth logn K
          (laneRun f lyap logn nm1Half fuel ⟨z.1, z.2, true, (i : ℝ), r2, ls, lc⟩)
        = scalarAux f logn fuel i z := by
  intro fuel
  induction fuel with
  | zero =>
      intro i z r2 ls lc hK
      have hi : i = K := by omega
      subst hi
      simp [laneRun, laneSmooth, scalarAux]
  | succ m ih =>
      intro i z r2 ls lc hK
      by_cases hesc : mag2 z > 4
      · rw [scalarAux_of_escape f logn i m z hesc]
        show laneSmooth logn K
            (laneRun f lyap logn nm1Half m
              (laneStep f lyap logn nm1Half ⟨z.1, z.2, true, (i : ℝ), r2, ls, lc⟩)) = _
        rw [laneStep_active_esc f lyap logn nm1Half i z r2 ls lc hesc]
        rw [laneRun_inactive f lyap logn nm1Half m _ rfl]
        simp [laneSmooth, smoothVal, div_eq_mul_inv]
      · rw [scalarAux_of_not_escape f logn i m z hesc]
        show laneSmooth logn K
            (laneRun f lyap logn nm1Half m
              (laneStep f lyap logn nm1Half ⟨z.1, z.2, true, (i : ℝ), r2, ls, lc⟩)) = _
        rw [laneStep_active_noesc f lyap logn nm1Half i z r2 ls lc hesc]
        exact ih (i + 1) (f z) r2 _ _ (by omega)

/-- Variant of `laneRun_smooth_eq` for two z-updates that agree along
the scalar trajectory: the lane loop running `f` computes the scalar
loop running `g` whenever `f` and `g` coincide on every iterate of `g`
that the run can visit. -/
lemma laneRun_smooth_eq_of_agree (f g : ℝ × ℝ → ℝ × ℝ) (lyap : Bool)
    (logn nm1Half : ℝ) (K : ℕ) :
    ∀ (fuel i : ℕ) (z : ℝ × ℝ) (r2 ls lc : ℝ), i + fuel = K →
      (∀ j < fuel, f (fOrbit g z j) = g (fOrbit g z j)) →
      laneSmooth logn K
          (laneRun f lyap logn nm1Half fuel ⟨z.1, z.2, true, (i : ℝ), r2, ls, lc⟩)
        = scalarAux g logn fuel i z := by
  intro fuel
  induction fuel with
  | zero =>
      intro i z r2 ls lc hK _
      have hi : i = K := by omega
      subst hi
      simp [laneRun, laneSmooth, scalarAux]
  | succ m ih =>
      intro i z r2 ls lc hK hagree
      by_cases hesc : mag2 z > 4
      · rw [scalarAux_of_escape g logn i m z hesc]
        show laneSmooth logn K
            (laneRun f lyap logn nm1Half m
              (laneStep f lyap logn nm1Half ⟨z.1, z.2, true, (i : ℝ), r2, ls, lc⟩)) = _
        rw [laneStep_active_esc f lyap logn nm1Half i z r2 ls lc hesc]
        rw [laneRun_inactive f lyap logn nm1Half m _ rfl]
        simp [laneSmooth, smoothVal, div_eq_mul_inv]
      · rw [scalarAux_of_not_escape g logn i m z hesc]
        show laneSmooth logn K
            (laneRun f lyap logn nm1Half m
              (laneStep f lyap logn nm1Half ⟨z.1, z.2, true, (i : ℝ), r2, ls, lc⟩)) = _
        rw [laneStep_active_noesc f lyap logn nm1Half i z r2 ls lc hesc]
        have h0 : f z = g z := by
          have := hagree 0 (Nat.succ_pos m)
          simpa [fOrbit] using this
        rw [h0]
        have hagree' : ∀ j < m, f (fOrbit g (g z) j) = g (fOrbit g (g z) j) := by
          intro j hj
          have := hagree (j + 1) (by omega)
          simpa [fOrbit, Function.iterate_succ_apply] using this
        exact ih (i + 1) (g z) r2 _ _ (by omega) hagree'

lemma abs_two_mul_mul (a b : ℝ) : |2 * a * b| = (|a| + |a|) * |b| := by
  have h : (2 : ℝ) * a * b = 2 * (a * b) := by ring
  rw [h, abs_mul, abs_mul, abs_two]
  ring

lemma abs_add_self_mul (a b : ℝ) : |(a + a) * b| = |2 * a * b| := by
  have h : (a + a) * b = 2 * a * b := by ring
  rw [h]

/-- The AVX degree-2 z-update agrees with the scalar one over the
reals. -/
lemma quadStepV_eq (bs mb ar ai : Bool) (c z : ℝ × ℝ) :
    quadStepV bs mb ar ai c z = quadStep bs mb ar ai c z := by
  cases bs <;> cases ar <;> cases ai <;> cases mb <;>
    simp only [quadStep, quadStepV, Bool.false_or, Bool.or_false, Bool.true_or,
      Bool.or_true, if_true, if_false, Bool.false_eq_true, Bool.true_eq_false,
      reduceIte] <;>
    refine Prod.ext ?_ ?_ <;>
    (try simp only [abs_add_self_mul]) <;>
    (try simp only [abs_mul, abs_two]) <;>
    ring

/-- The AVX integer-exponent z-update agrees with the scalar one. -/
lemma multibrotStepV_eq (mb : Bool) (n : ℕ) (c z : ℝ × ℝ) :
    multibrotStepV mb n c z = multibrotStep mb n c z := rfl

/-- The AVX real-exponent z-update agrees with the scalar one at every
state of nonzero squared magnitude (at zero magnitude the scalar jumps
to `c` while the machine's branch-free vector code leaves the reals). -/
lemma slowStepV_eq (n : ℝ) (c z : ℝ × ℝ) (h : mag2 z ≠ 0) :
    slowStepV n c z = slowStep n c z := by
  unfold slowStep slowStepV
  simp [h, mul_assoc]

lemma laneInit_eq (z : ℝ × ℝ) :
    laneInit z = ⟨z.1, z.2, true, ((0 : ℕ) : ℝ), 4, 0, 0⟩ := by
  simp [laneInit]

/-- Lane `k` of the degree-2 AVX kernel computes exactly the scalar
kernel at the pixel `re0 + k*scale`. -/
lemma avx_kernel_lane_smooth (ij bs mb ar ai lyap : Bool)
    (re0 scale im cre cim : ℝ) (K k : ℕ) :
    laneSmooth (Real.log 2) K (avx_kernel_lane ij bs mb ar ai lyap re0 scale im K cre cim k)
      = scalar_kernel ij bs mb ar ai (re0 + (k : ℝ) * scale) im cre cim K := by
  simp only [avx_kernel_lane, scalar_kernel]
  have hf : quadStepV bs mb ar ai (if ij then (cre, cim) else (re0 + (k : ℝ) * scale, im))
      = quadStep bs mb ar ai (if ij then (cre, cim) else (re0 + (k : ℝ) * scale, im)) :=
    funext (quadStepV_eq bs mb ar ai _)
  rw [hf, laneInit_eq]
  exact laneRun_smooth_eq _ lyap (Real.log 2) 0.5 K K 0 _ 4 0 0 (Nat.zero_add K)

/-- Lane `k` of the integer-exponent AVX kernel computes exactly the
scalar integer-exponent kernel at the pixel `re0 + k*scale`. -/
lemma avx_multibrot_lane_smooth (ij mb lyap : Bool)
    (re0 scale im cre cim : ℝ) (K n k : ℕ) :
    laneSmooth (Real.log n) K (avx_multibrot_lane ij mb lyap re0 scale im K n cre cim k)
      = scalar_multibrot_kernel ij mb (re0 + (k : ℝ) * scale) im cre cim K n := by
  simp only [avx_multibrot_lane, scalar_multibrot_kernel]
  rw [laneInit_eq]
  exact laneRun_smooth_eq _ lyap (Real.log n) _ K K 0 _ 4 0 0 (Nat.zero_add K)

/-- Lane `k` of the real-exponent AVX kernel computes exactly the scalar
real-exponent kernel at the pixel `re0 + k*scale`, provided no iterate
within the cap has squared magnitude exactly 0; at a zero-magnitude
iterate the machine's branch-free SLEEF evaluation leaves the reals and
the two kernels can genuinely diverge (see `c2_slow_zero_divergence`). -/
lemma avx_multibrot_slow_lane_smooth (ij lyap : Bool)
    (re0 scale im cre cim n : ℝ) (K k : ℕ)
    (hmag : ∀ j < K, mag2 (fOrbit
        (slowStep n (if ij then (cre, cim) else (re0 + (k : ℝ) * scale, im)))
        (if ij then (re0 + (k : ℝ) * scale, im) else (0, 0)) j) ≠ 0) :
    laneSmooth (Real.log n) K (avx_multibrot_slow_lane ij lyap re0 scale im K n cre cim k)
      = scalar_multibrot_slow_kernel ij (re0 + (k : ℝ) * scale) im cre cim K n := by
  simp only [avx_multibrot_slow_lane, scalar_multibrot_slow_kernel]
  rw [laneInit_eq]
  refine laneRun_smooth_eq_of_agree (slowStepV n _) (slowStep n _) lyap (Real.log n) _
    K K 0 _ 4 0 0 (Nat.zero_add K) ?_
  intro j hj
  exact slowStepV_eq n _ _ (hmag j hj)

/-- Claim C1: for every formula family and seeding mode (any z-update
`f` and smooth base, covering all instantiations of the scalar and
vector kernel templates), any cap `K ≥ 1` and any starting coordinate,
if the iterated point never satisfies `|z|² > 4` during the first `K`
iterations then the scalar kernel returns exactly `K` and the vector
kernel's lane holds exactly `K` after the loop. -/
theorem c1_interior_exact (f : ℝ × ℝ → ℝ × ℝ) (lyap : Bool) (logn nm1Half : ℝ)
    (K : ℕ) (z0 : ℝ × ℝ) (_hK : 1 ≤ K)
    (h : ∀ j < K, ¬ mag2 (fOrbit f z0 j) > 4) :
    scalarAux f logn K 0 z0 = (K : ℝ) ∧
      laneSmooth logn K (laneRun f lyap logn nm1Half K (laneInit z0)) = (K : ℝ) := by
  have hs : scalarAux f logn K 0 z0 = (K : ℝ) := by
    have := scalarAux_interior f logn K 0 z0 h
    simpa using this
  refine ⟨hs, ?_⟩
  rw [laneInit_eq, laneRun_smooth_eq f lyap logn nm1Half K K 0 z0 4 0 0 (Nat.zero_add K)]
  exact hs

/-- Witness for C1 at the origin under the origin-seeded quadratic
formula with cap 2. -/
theorem c1_interior_exact_witness :
    ((1 ≤ 2 ∧ ∀ j < 2, ¬ mag2 (fOrbit (quadStep false false false false (0, 0)) (0, 0) j) > 4) ∧
      (scalarAux (quadStep false false false false (0, 0)) (Real.log 2) 2 0 (0, 0) = ((2 : ℕ) : ℝ) ∧
        laneSmooth (Real.log 2) 2
          (laneRun (quadStep false false false false (0, 0)) false (Real.log 2) 0.5 2
            (laneInit (0, 0))) = ((2 : ℕ) : ℝ))) := by
  have horb : ∀ j < 2, ¬ mag2 (fOrbit (quadStep false false false false ((0 : ℝ), (0 : ℝ))) (0, 0) j) > 4 := by
    intro j hj
    interval_cases j <;> simp [fOrbit, quadStep, mag2]
  exact ⟨⟨by norm_num, horb⟩,
    c1_interior_exact (quadStep false false false false (0, 0)) false (Real.log 2) 0.5 2
      (0, 0) (by norm_num) horb⟩

/-- The point escapes exactly at completed-iteration index `i`: no
earlier check sees `|z|² > 4`, the check after `i` completed updates
does. -/
def escapesAt (f : ℝ × ℝ → ℝ × ℝ) (z0 : ℝ × ℝ) (i : ℕ) : Prop :=
  (∀ j < i, ¬ mag2 (fOrbit f z0 j) > 4) ∧ mag2 (fOrbit f z0 i) > 4

/-- A run whose fuel covers the escape index returns the smooth value of
the escape iterate, independently of any further fuel. -/
lemma scalarAux_escape_val (f : ℝ × ℝ → ℝ × ℝ) (logn : ℝ) :
    ∀ (i fuel i0 : ℕ) (z : ℝ × ℝ), (∀ j < i, ¬ mag2 (fOrbit f z j) > 4) →
      mag2 (fOrbit f z i) > 4 → i < fuel →
      scalarAux f logn fuel i0 z = smoothVal logn (i0 + i) (mag2 (fOrbit f z i)) := by
  intro i
  induction i with
  | zero =>
      intro fuel i0 z _ hesc hfuel
      obtain ⟨m, rfl⟩ : ∃ m, fuel = m + 1 := ⟨fuel - 1, by omega⟩
      have h0 : mag2 z > 4 := by simpa [fOrbit] using hesc
      rw [scalarAux_of_escape f logn i0 m z h0]
      simp [fOrbit]
  | succ k ih =>
      intro fuel i0 z hpre hesc hfuel
      obtain ⟨m, rfl⟩ : ∃ m, fuel = m + 1 := ⟨fuel - 1, by omega⟩
      have h0 : ¬ mag2 z > 4 := by
        have := hpre 0 (Nat.succ_pos k)
        simpa [fOrbit] using this
      rw [scalarAux_of_not_escape f logn i0 m z h0]
      have hpre' : ∀ j < k, ¬ mag2 (fOrbit f (f z) j) > 4 := by
        intro j hj
        have := hpre (j + 1) (by omega)
        simpa [fOrbit, Function.iterate_succ_apply] using this
      have hesc' : mag2 (fOrbit f (f z) k) > 4 := by
        simpa [fOrbit, Function.iterate_succ_apply] using hesc
      rw [ih m (i0 + 1) (f z) hpre' hesc' (by omega)]
      have hcast : i0 + 1 + k = i0 + (k + 1) := by omega
      rw [hcast, show fOrbit f z (k + 1) = fOrbit f (f z) k from by
        simp [fOrbit, Function.iterate_succ_apply]]

/-- Claim C2, evidence at the failing input (real-exponent MultiSlow
formula, Julia seeding with parameter `(3, 0)`, exponent `-2.5`, cap 5,
pixel `(0, 0)`): the scalar kernel takes its `mag2 == 0` branch, jumps
`z` to `c = (3, 0)`, and escapes at completed-iteration index 1, so it
returns the escape-branch smooth value of magnitude 9 — not the cap.
The AVX kernel `avx_multibrot_slow_kernel` has no such branch: on the
machine it computes `log(0) = -inf`, `r_n = exp(-2.5 * -inf) = +inf`,
poisons the lane with inf/NaN, never passes the ordered escape compare
again, and returns the cap 5 — a computation outside the reals, hence
not representable in this embedding. -/
theorem c2_slow_zero_divergence :
    fOrbit (slowStep (-2.5) (3, 0)) (0, 0) 1 = (3, 0) ∧
      escapesAt (slowStep (-2.5) (3, 0)) (0, 0) 1 ∧
      ∀ logn : ℝ, scalarAux (slowStep (-2.5) (3, 0)) logn 5 0 (0, 0) = smoothVal logn 1 9 := by
  have h1 : fOrbit (slowStep (-2.5) ((3 : ℝ), (0 : ℝ))) (0, 0) 1 = (3, 0) := by
    norm_num [fOrbit, slowStep, mag2]
  have hpre : ∀ j < 1, ¬ mag2 (fOrbit (slowStep (-2.5) ((3 : ℝ), (0 : ℝ))) (0, 0) j) > 4 := by
    intro j hj
    interval_cases j
    norm_num [fOrbit, mag2]
  have hm9 : mag2 ((3 : ℝ), (0 : ℝ)) = 9 := by norm_num [mag2]
  have hesc : mag2 (fOrbit (slowStep (-2.5) ((3 : ℝ), (0 : ℝ))) (0, 0) 1) > 4 := by
    rw [h1, hm9]
    norm_num
  refine ⟨h1, ⟨hpre, hesc⟩, ?_⟩
  intro logn
  have := scalarAux_escape_val (slowStep (-2.5) (3, 0)) logn 1 5 0 (0, 0) hpre hesc (by norm_num)
  rw [this, h1, hm9]

/-- Claim C8: if the scalar kernel run with cap `K` escapes at
completed-iteration index `i < K`, then re-running the same point with
any cap `K' ≥ i + 1` returns exactly the same smooth value. -/
theorem c8_escape_monotone (f : ℝ × ℝ → ℝ × ℝ) (logn : ℝ) (K Kp i : ℕ) (z0 : ℝ × ℝ)
    (hiK : i < K) (hiKp : i + 1 ≤ Kp) (h : escapesAt f z0 i) :
    scalarAux f logn K 0 z0 = scalarAux f logn Kp 0 z0 := by
  rw [scalarAux_escape_val f logn i K 0 z0 h.1 h.2 hiK,
    scalarAux_escape_val f logn i Kp 0 z0 h.1 h.2 (by omega)]

/-- Witness for C8: the origin-seeded quadratic at pixel `(3, 0)`
escapes at index 1; caps 2 and 5 agree. -/
theorem c8_escape_monotone_witness :
    (1 < 2 ∧ 1 + 1 ≤ 5 ∧ escapesAt (quadStep false false false false (3, 0)) (0, 0) 1) ∧
      scalarAux (quadStep false false false false (3, 0)) (Real.log 2) 2 0 (0, 0)
        = scalarAux (quadStep false false false false (3, 0)) (Real.log 2) 5 0 (0, 0) := by
  have hesc : escapesAt (quadStep false false false false ((3 : ℝ), (0 : ℝ))) (0, 0) 1 := by
    constructor
    · intro j hj
      interval_cases j
      simp [fOrbit, mag2]
    · show mag2 (fOrbit (quadStep false false false false (3, 0)) (0, 0) 1) > 4
      simp [fOrbit, quadStep, mag2]
      norm_num
  exact ⟨⟨by norm_num, by norm_num, hesc⟩,
    c8_escape_monotone (quadStep false false false false (3, 0)) (Real.log 2) 2 5 1 (0, 0)
      (by norm_num) (by norm_num) hesc⟩

/-- Lower bound: every scalar kernel value is non-negative (the escape
branch is clamped by `max 0`, the interior branch returns the cap). -/
lemma scalarAux_nonneg (f : ℝ × ℝ → ℝ × ℝ) (logn : ℝ) :
    ∀ (fuel i : ℕ) (z : ℝ × ℝ), 0 ≤ scalarAux f logn fuel i z := by
  intro fuel
  induction fuel with
  | zero => intro i z; simp [scalarAux]
  | succ m ih =>
      intro i z
      by_cases h : mag2 z > 4
      · rw [scalarAux_of_escape f logn i m z h]
        exact le_max_left 0 _
      · rw [scalarAux_of_not_escape f logn i m z h]
        exact ih (i + 1) (f z)

/-- With smooth base `log 2` the escape correction `nu` is positive
whenever `m2 > 4`, so the smooth value never exceeds `i + 1`. -/
lemma smoothVal_le_base2 (i : ℕ) (m2 : ℝ) (h : m2 > 4) :
    smoothVal (Real.log 2) i m2 ≤ (i : ℝ) + 1 := by
  have hlog2 : 0 < Real.log 2 := Real.log_pos (by norm_num)
  have hm : Real.log 4 < Real.log m2 := Real.log_lt_log (by norm_num) h
  have h4 : Real.log 4 = 2 * Real.log 2 := by
    rw [show (4 : ℝ) = 2 ^ 2 by norm_num, Real.log_pow]
    push_cast
    ring
  have hx : 1 < Real.log m2 * 0.5 / Real.log 2 := by
    rw [lt_div_iff₀ hlog2]
    nlinarith
  have hnu : 0 < Real.log (Real.log m2 * 0.5 / Real.log 2) / Real.log 2 :=
    div_pos (Real.log_pos hx) hlog2
  have : (i : ℝ) + 1 - Real.log (Real.log m2 * 0.5 / Real.log 2) / Real.log 2 ≤ (i : ℝ) + 1 := by
    linarith
  exact max_le (by positivity) this

lemma scalarAux_le_base2 (f : ℝ × ℝ → ℝ × ℝ) :
    ∀ (fuel i : ℕ) (z : ℝ × ℝ), scalarAux f (Real.log 2) fuel i z ≤ ((i + fuel : ℕ) : ℝ) := by
  intro fuel
  induction fuel with
  | zero => intro i z; simp [scalarAux]
  | succ m ih =>
      intro i z
      by_cases h : mag2 z > 4
      · rw [scalarAux_of_escape f (Real.log 2) i m z h]
        calc smoothVal (Real.log 2) i (mag2 z) ≤ (i : ℝ) + 1 := smoothVal_le_base2 i _ h
          _ ≤ ((i + (m + 1) : ℕ) : ℝ) := by push_cast; linarith
      · rw [scalarAux_of_not_escape f (Real.log 2) i m z h]
        calc scalarAux f (Real.log 2) m (i + 1) (f z) ≤ ((i + 1 + m : ℕ) : ℝ) :=
              ih (i + 1) (f z)
          _ = ((i + (m + 1) : ℕ) : ℝ) := by congr 1; omega

/-- Counterexample to claim C5: the Julia-seeded integer-exponent kernel
with exponent 3, cap 1 and start `(2.1, 0)` escapes on the last allowed
iteration with `|z|² = 4.41 < 3²`, making the correction term negative
and the smooth value strictly greater than the cap 1. -/
theorem c5_smooth_range_counterexample :
    1 < scalar_multibrot_kernel true false 2.1 0 0 0 1 3 := by
  have hmag : mag2 ((2.1 : ℝ), (0 : ℝ)) > 4 := by
    simp [mag2]
    norm_num
  have hker : scalar_multibrot_kernel true false 2.1 0 0 0 1 3
      = smoothVal (Real.log ((3 : ℕ) : ℝ)) 0 (mag2 ((2.1 : ℝ), (0 : ℝ))) := by
    simp only [scalar_multibrot_kernel, if_true]
    exact scalarAux_of_escape _ _ 0 0 _ hmag
  rw [hker, show ((3 : ℕ) : ℝ) = 3 from by norm_num]
  have hm2 : mag2 ((2.1 : ℝ), (0 : ℝ)) = 4.41 := by
    simp [mag2]
    norm_num
  rw [hm2]
  have hlog3 : 0 < Real.log 3 := Real.log_pos (by norm_num)
  have hnum : 0 < Real.log 4.41 := Real.log_pos (by norm_num)
  have hx : 0 < Real.log 4.41 * 0.5 / Real.log 3 := by positivity
  have h9 : Real.log 4.41 < Real.log 9 := Real.log_lt_log (by norm_num) (by norm_num)
  have h9' : Real.log 9 = 2 * Real.log 3 := by
    rw [show (9 : ℝ) = 3 ^ 2 by norm_num, Real.log_pow]
    push_cast
    ring
  have hxlt : Real.log 4.41 * 0.5 / Real.log 3 < 1 := by
    rw [div_lt_one hlog3]
    nlinarith
  have hlogx : Real.log (Real.log 4.41 * 0.5 / Real.log 3) < 0 := Real.log_neg hx hxlt
  have hnu : Real.log (Real.log 4.41 * 0.5 / Real.log 3) / Real.log 3 < 0 :=
    div_neg_of_neg_of_pos hlogx hlog3
  have h1 : (1 : ℝ) < (0 : ℕ) + 1 - Real.log (Real.log 4.41 * 0.5 / Real.log 3) / Real.log 3 := by
    push_cast
    linarith
  exact lt_of_lt_of_le h1 (le_max_right 0 _)

/-- Claim C5 (amended): every kernel value is at least 0, and for the
degree-2 kernels (smooth base `log 2`: quadratic, absolute-value and
conjugate variants) it is also at most the iteration cap, in the scalar
loop and in every vector lane alike.  For exponent bases `n ≥ 3` the
upper bound fails (see the counterexample). -/
theorem c5_smooth_range :
    (∀ (f : ℝ × ℝ → ℝ × ℝ) (logn : ℝ) (K : ℕ) (z : ℝ × ℝ),
      0 ≤ scalarAux f logn K 0 z) ∧
    (∀ (f : ℝ × ℝ → ℝ × ℝ) (K : ℕ) (z : ℝ × ℝ),
      scalarAux f (Real.log 2) K 0 z ≤ (K : ℝ)) ∧
    (∀ (f : ℝ × ℝ → ℝ × ℝ) (lyap : Bool) (logn nm1Half : ℝ) (K : ℕ) (z : ℝ × ℝ),
      0 ≤ laneSmooth logn K (laneRun f lyap logn nm1Half K (laneInit z))) ∧
    (∀ (f : ℝ × ℝ → ℝ × ℝ) (lyap : Bool) (nm1Half : ℝ) (K : ℕ) (z : ℝ × ℝ),
      laneSmooth (Real.log 2) K
        (laneRun f lyap (Real.log 2) nm1Half K (laneInit z)) ≤ (K : ℝ)) := by
  refine ⟨fun f logn K z => scalarAux_nonneg f logn K 0 z, ?_, ?_, ?_⟩
  · intro f K z
    have := scalarAux_le_base2 f K 0 z
    simpa using this
  · intro f lyap logn nm1Half K z
    rw [laneInit_eq, laneRun_smooth_eq f lyap logn nm1Half K K 0 z 4 0 0 (Nat.zero_add K)]
    exact scalarAux_nonneg f logn K 0 z
  · intro f lyap nm1Half K z
    rw [laneInit_eq,
      laneRun_smooth_eq f lyap (Real.log 2) nm1Half K K 0 z 4 0 0 (Nat.zero_add K)]
    have := scalarAux_le_base2 f K 0 z
    simpa using this

/-- Formula selector of `view_state.hpp` (`FormulaType` enum, 7 values). -/
inductive FormulaType
  | Standard
  | BurningShip
  | Celtic
  | Buffalo
  | Mandelbar
  | MultiFast
  | MultiSlow
deriving DecidableEq

/-- The fields of `ViewState` (`view_state.hpp`) read by the kernels;
viewport, palette and UI fields are omitted because the iteration code
never reads them. -/
structure ViewState where
  julia_re : ℝ
  julia_im : ℝ
  max_iter : ℕ
  formula : FormulaType
  julia_mode : Bool
  multibrot_exp : ℕ
  multibrot_exp_f : ℝ

/-- The exponent used for smooth coloring and the Lyapunov derivative,
from the selector lambda of `scalar_lyapunov_iter` (`fractal.hpp` lines
712-722). -/
noncomputable def exp_n (vs : ViewState) : ℝ :=
  match vs.formula with
  | FormulaType.Mandelbar => (vs.multibrot_exp : ℝ)
  | FormulaType.MultiFast => (vs.multibrot_exp : ℝ)
  | FormulaType.MultiSlow => vs.multibrot_exp_f
  | _ => 2

/-- The per-formula z-update switch of `scalar_lyapunov_iter`
(`fractal.hpp` lines 748-817).  The Burning Ship case squares the
rectified components (`azr*azr - azi*azi`), Celtic/Buffalo rectify the
squared components, Mandelbar with exponent 2 negates the doubled cross
term and otherwise conjugates `z^n`, MultiFast multiplies repeatedly,
and MultiSlow uses the polar form with the `mag2 == 0` jump to `c`. -/
noncomputable def lyapStep (vs : ViewState) (c z : ℝ × ℝ) : ℝ × ℝ :=
  match vs.formula with
  | FormulaType.Standard => (z.1 * z.1 - z.2 * z.2 + c.1, 2 * z.1 * z.2 + c.2)
  | FormulaType.BurningShip =>
      (|z.1| * |z.1| - |z.2| * |z.2| + c.1, 2 * |z.1| * |z.2| + c.2)
  | FormulaType.Celtic => (|z.1 * z.1 - z.2 * z.2| + c.1, 2 * z.1 * z.2 + c.2)
  | FormulaType.Buffalo => (|z.1 * z.1 - z.2 * z.2| + c.1, |2 * z.1 * z.2| + c.2)
  | FormulaType.Mandelbar =>
      if vs.multibrot_exp = 2 then
        (z.1 * z.1 - z.2 * z.2 + c.1, -(2 * z.1 * z.2) + c.2)
      else
        let p := powRep z (vs.multibrot_exp - 1)
        (p.1 + c.1, -p.2 + c.2)
  | FormulaType.MultiFast =>
      let p := powRep z (vs.multibrot_exp - 1)
      (p.1 + c.1, p.2 + c.2)
  | FormulaType.MultiSlow =>
      if mag2 z = 0 then c
      else
        let rn := Real.exp (exp_n vs * Real.log (mag2 z) * 0.5)
        let th := atan2 z.2 z.1
        (rn * Real.cos (exp_n vs * th) + c.1, rn * Real.sin (exp_n vs * th) + c.2)

/-- The accumulation loop of `scalar_lyapunov_iter` (`fractal.hpp` lines
726-825): per iteration, first the Lyapunov term is accumulated if
`mag2 > 0`, then the escape test returns the smooth value together with
`count > 0 ? sum / count : 0`, otherwise `z` is updated; when the cap is
reached the interior branch returns `(max_iter, count > 0 ? sum / count
: 0)`. -/
noncomputable def lyapAux (f : ℝ × ℝ → ℝ × ℝ) (logn nm1Half : ℝ) :
    ℕ → ℕ → ℝ → ℕ → ℝ × ℝ → ℝ × ℝ
  | 0, i, lyapSum, count, _ =>
      ((i : ℝ), if count > 0 then lyapSum / (count : ℝ) else 0)
  | fuel + 1, i, lyapSum, count, z =>
      let m2 := mag2 z
      let lyapSum' := if m2 > 0 then lyapSum + (logn + nm1Half * Real.log m2) else lyapSum
      let count' := if m2 > 0 then count + 1 else count
      if m2 > 4 then
        (smoothVal logn i m2, if count' > 0 then lyapSum' / (count' : ℝ) else 0)
      else lyapAux f logn nm1Half fuel (i + 1) lyapSum' count' (f z)

/-- `scalar_lyapunov_iter` (`fractal.hpp` lines 700-825): seeding from
`julia_mode`, exponent from the formula, result `(smooth, lambda)`. -/
noncomputable def scalar_lyapunov_iter (vs : ViewState) (re im : ℝ) : ℝ × ℝ :=
  let z0 : ℝ × ℝ := if vs.julia_mode then (re, im) else (0, 0)
  let c : ℝ × ℝ := if vs.julia_mode then (vs.julia_re, vs.julia_im) else (re, im)
  lyapAux (lyapStep vs c) (Real.log (exp_n vs)) ((exp_n vs - 1) * 0.5)
    vs.max_iter 0 0 0 z0

/-- Number of loop iterations the Lyapunov loop executes: up to and
including the first escaping check, or all `K` when no check escapes. -/
noncomputable def runLen (f : ℝ × ℝ → ℝ × ℝ) : ℕ → ℝ × ℝ → ℕ
  | 0, _ => 0
  | fuel + 1, z => if mag2 z > 4 then 1 else runLen f fuel (f z) + 1

/-- The Lyapunov term of iteration `j`, following the spec sentence: if
`|z|² > 0`, `log n + (n-1)/2 · log |z|²`, else nothing. -/
noncomputable def lyapTerm (logn nm1Half : ℝ) (f : ℝ × ℝ → ℝ × ℝ) (z0 : ℝ × ℝ) (j : ℕ) : ℝ :=
  if mag2 (fOrbit f z0 j) > 0 then logn + nm1Half * Real.log (mag2 (fOrbit f z0 j)) else 0

/-- The term-count contribution of iteration `j`. -/
noncomputable def lyapCnt (f : ℝ × ℝ → ℝ × ℝ) (z0 : ℝ × ℝ) (j : ℕ) : ℕ :=
  if mag2 (fOrbit f z0 j) > 0 then 1 else 0

/-- The Lyapunov exponent as the spec states it: the sum of the terms
accumulated over the executed iterations divided by `max(count, 1)`. -/
noncomputable def lyapSpec (f : ℝ × ℝ → ℝ × ℝ) (logn nm1Half : ℝ) (K : ℕ) (z0 : ℝ × ℝ) : ℝ :=
  (∑ j ∈ Finset.range (runLen f K z0), lyapTerm logn nm1Half f z0 j) /
    max ((∑ j ∈ Finset.range (runLen f K z0), lyapCnt f z0 j : ℕ) : ℝ) 1

lemma lyapTerm_shift (logn nm1Half : ℝ) (f : ℝ × ℝ → ℝ × ℝ) (z : ℝ × ℝ) (j : ℕ) :
    lyapTerm logn nm1Half f z (j + 1) = lyapTerm logn nm1Half f (f z) j := by
  simp [lyapTerm, fOrbit, Function.iterate_succ_apply]

lemma lyapCnt_shift (f : ℝ × ℝ → ℝ × ℝ) (z : ℝ × ℝ) (j : ℕ) :
    lyapCnt f z (j + 1) = lyapCnt f (f z) j := by
  simp [lyapCnt, fOrbit, Function.iterate_succ_apply]

/-- Closed form of the lambda returned by the Lyapunov loop from any
intermediate accumulator state. -/
lemma lyapAux_lambda (f : ℝ × ℝ → ℝ × ℝ) (logn nm1Half : ℝ) :
    ∀ (fuel i : ℕ) (S : ℝ) (C : ℕ) (z : ℝ × ℝ),
      (lyapAux f logn nm1Half fuel i S C z).2 =
        if C + ∑ j ∈ Finset.range (runLen f fuel z), lyapCnt f z j > 0 then
          (S + ∑ j ∈ Finset.range (runLen f fuel z), lyapTerm logn nm1Half f z j) /
            ((C + ∑ j ∈ Finset.range (runLen f fuel z), lyapCnt f z j : ℕ) : ℝ)
        else 0 := by
  intro fuel
  induction fuel with
  | zero =>
      intro i S C z
      simp [lyapAux, runLen]
  | succ m ih =>
      intro i S C z
      by_cases h4 : mag2 z > 4
      · have h0 : mag2 z > 0 := by linarith
        have hN : runLen f (m + 1) z = 1 := by simp [runLen, h4]
        have ht0 : lyapTerm logn nm1Half f z 0 = logn + nm1Half * Real.log (mag2 z) := by
          simp [lyapTerm, fOrbit, h0]
        have hc0 : lyapCnt f z 0 = 1 := by simp [lyapCnt, fOrbit, h0]
        simp only [lyapAux, h4, if_pos, hN, Finset.sum_range_one, ht0, hc0, h0]
      · have hN : runLen f (m + 1) z = runLen f m (f z) + 1 := by simp [runLen, h4]
        have hstep : lyapAux f logn nm1Half (m + 1) i S C z =
            lyapAux f logn nm1Half m (i + 1)
              (if mag2 z > 0 then S + (logn + nm1Half * Real.log (mag2 z)) else S)
              (if mag2 z > 0 then C + 1 else C) (f z) := by
          simp [lyapAux, h4]
        rw [hstep, ih (i + 1) _ _ (f z), hN, Finset.sum_range_succ', Finset.sum_range_succ']
        have htshift : ∀ j ∈ Finset.range (runLen f m (f z)),
            lyapTerm logn nm1Half f z (j + 1) = lyapTerm logn nm1Half f (f z) j :=
          fun j _ => lyapTerm_shift logn nm1Half f z j
        have hcshift : ∀ j ∈ Finset.range (runLen f m (f z)),
            lyapCnt f z (j + 1) = lyapCnt f (f z) j :=
          fun j _ => lyapCnt_shift f z j
        rw [Finset.sum_congr rfl htshift, Finset.sum_congr rfl hcshift]
        have ht0 : lyapTerm logn nm1Half f z 0 =
            (if mag2 z > 0 then logn + nm1Half * Real.log (mag2 z) else 0) := by
          simp [lyapTerm, fOrbit]
        have hc0 : lyapCnt f z 0 = (if mag2 z > 0 then 1 else 0) := by
          simp [lyapCnt, fOrbit]
        rw [ht0, hc0]
        by_cases h0 : mag2 z > 0
        · simp only [h0, if_pos]
          have hceq : C + 1 + ∑ j ∈ Finset.range (runLen f m (f z)), lyapCnt f (f z) j =
              C + (∑ j ∈ Finset.range (runLen f m (f z)), lyapCnt f (f z) j + 1) := by
            omega
          rw [hceq]
          have hseq : S + (logn + nm1Half * Real.log (mag2 z)) +
              ∑ j ∈ Finset.range (runLen f m (f z)), lyapTerm logn nm1Half f (f z) j =
              S + (∑ j ∈ Finset.range (runLen f m (f z)), lyapTerm logn nm1Half f (f z) j +
                (logn + nm1Half * Real.log (mag2 z))) := by
            ring
          rw [hseq]
        · simp only [h0, if_neg, not_false_iff]
          simp

/-- Claim C3: for every formula, seeding mode and starting coordinate,
the Lyapunov exponent returned by `scalar_lyapunov_iter` equals the sum
of the terms `log n + (n-1)/2·log|z|²` accumulated at every executed
iteration with `|z|² > 0`, divided by `max(count, 1)`; escaping points
use exactly the iterations up to and including the escaping check,
interior points all iterations up to the cap. -/
theorem c3_lyapunov_accumulation (vs : ViewState) (re im : ℝ) :
    (scalar_lyapunov_iter vs re im).2 =
      lyapSpec (lyapStep vs (if vs.julia_mode then (vs.julia_re, vs.julia_im) else (re, im)))
        (Real.log (exp_n vs)) ((exp_n vs - 1) * 0.5) vs.max_iter
        (if vs.julia_mode then (re, im) else (0, 0)) := by
  unfold scalar_lyapunov_iter lyapSpec
  rw [lyapAux_lambda]
  set f := lyapStep vs (if vs.julia_mode then (vs.julia_re, vs.julia_im) else (re, im))
  set z0 : ℝ × ℝ := if vs.julia_mode then (re, im) else (0, 0)
  set N := runLen f vs.max_iter z0
  by_cases hC : 0 < ∑ j ∈ Finset.range N, lyapCnt f z0 j
  · have h1 : (1 : ℝ) ≤ ((∑ j ∈ Finset.range N, lyapCnt f z0 j : ℕ) : ℝ) := by
      exact_mod_cast hC
    rw [max_eq_left h1]
    simp [hC]
  · have hzero : ∑ j ∈ Finset.range N, lyapCnt f z0 j = 0 := by omega
    have hterms : ∑ j ∈ Finset.range N, lyapTerm (Real.log (exp_n vs))
        ((exp_n vs - 1) * 0.5) f z0 j = 0 := by
      refine Finset.sum_eq_zero ?_
      intro j hj
      have := Finset.sum_eq_zero_iff.mp hzero j hj
      simp only [lyapCnt] at this
      by_cases hm : mag2 (fOrbit f z0 j) > 0
      · simp [hm] at this
      · simp [lyapTerm, hm]
    rw [hzero, hterms]
    simp

/-- Vector/scalar Lyapunov equivalence from any intermediate state, as
long as every remaining iterate's squared magnitude is either exactly 0
or above the vector path's accumulation threshold `1e-200`. -/
lemma laneRun_lyap_eq (f : ℝ × ℝ → ℝ × ℝ) (logn nm1Half : ℝ) :
    ∀ (fuel i : ℕ) (S : ℝ) (C : ℕ) (z : ℝ × ℝ) (r2 : ℝ),
      (∀ j < fuel, mag2 (fOrbit f z j) = 0 ∨ mag2 (fOrbit f z j) > 1e-200) →
      (C = 0 → S = 0) →
      laneLyap (laneRun f true logn nm1Half fuel ⟨z.1, z.2, true, (i : ℝ), r2, S, (C : ℝ)⟩)
        = (lyapAux f logn nm1Half fuel i S C z).2 := by
  intro fuel
  induction fuel with
  | zero =>
      intro i S C z r2 _ hSC
      rcases Nat.eq_zero_or_pos C with hC | hC
      · subst hC
        rw [hSC rfl]
        simp [laneRun, laneLyap, lyapAux]
      · have h1 : (1 : ℝ) ≤ (C : ℝ) := by exact_mod_cast hC
        simp only [laneRun, laneLyap, lyapAux]
        rw [max_eq_left h1]
        simp [hC]
  | succ m ih =>
      intro i S C z r2 hmags hSC
      have h0mag := hmags 0 (Nat.succ_pos m)
      simp only [fOrbit, Function.iterate_zero, id] at h0mag
      have hmags' : ∀ j < m, mag2 (fOrbit f (f z) j) = 0 ∨ mag2 (fOrbit f (f z) j) > 1e-200 := by
        intro j hj
        have := hmags (j + 1) (by omega)
        simpa [fOrbit, Function.iterate_succ_apply] using this
      by_cases h4 : mag2 z > 4
      · have hth : mag2 z > 1e-200 := by
          have : (1e-200 : ℝ) < 4 := by norm_num
          linarith
        have hclamp : max (mag2 z) 1e-300 = mag2 z := by
          have : (1e-300 : ℝ) ≤ mag2 z := by
            have : (1e-300 : ℝ) < 4 := by norm_num
            linarith
          exact max_eq_left this
        show laneLyap (laneRun f true logn nm1Half m
            (laneStep f true logn nm1Half ⟨z.1, z.2, true, (i : ℝ), r2, S, (C : ℝ)⟩)) = _
        rw [laneStep_active_esc f true logn nm1Half i z r2 S (C : ℝ) h4]
        rw [laneRun_inactive f true logn nm1Half m _ rfl]
        have hm0 : mag2 z > 0 := by
          have : (0 : ℝ) < 1e-200 := by norm_num
          linarith
        have hstep2 : lyapAux f logn nm1Half (m + 1) i S C z =
            (smoothVal logn i (mag2 z),
              if C + 1 > 0 then
                (S + (logn + nm1Half * Real.log (mag2 z))) / ((C + 1 : ℕ) : ℝ)
              else 0) := by
          simp [lyapAux, h4, hm0]
        rw [hstep2]
        simp only [laneLyap, hclamp, hth, true_and, and_true, if_true, eq_self_iff_true]
        have hmax : max ((C : ℝ) + 1) 1 = (C : ℝ) + 1 := by
          have h1 : (1 : ℝ) ≤ (C : ℝ) + 1 := by
            have hc := Nat.cast_nonneg (α := ℝ) C
            linarith
          exact max_eq_left h1
        rw [hmax, if_pos (Nat.succ_pos C)]
        push_cast
        ring_nf
      · show laneLyap (laneRun f true logn nm1Half m
            (laneStep f true logn nm1Half ⟨z.1, z.2, true, (i : ℝ), r2, S, (C : ℝ)⟩)) = _
        rw [laneStep_active_noesc f true logn nm1Half i z r2 S (C : ℝ) h4]
        have hstep2 : lyapAux f logn nm1Half (m + 1) i S C z =
            lyapAux f logn nm1Half m (i + 1)
              (if mag2 z > 0 then S + (logn + nm1Half * Real.log (mag2 z)) else S)
              (if mag2 z > 0 then C + 1 else C) (f z) := by
          simp [lyapAux, h4]
        rw [hstep2]
        rcases h0mag with hz | hz
        · have hc1 : ¬ mag2 z > 1e-200 := by rw [hz]; norm_num
          have hc2 : ¬ mag2 z > 0 := by rw [hz]; norm_num
          simp only [hc1, hc2, and_false, true_and, if_false, ite_false]
          exact ih (i + 1) S C (f z) r2 hmags' hSC
        · have hc2 : mag2 z > 0 := by
            have : (0 : ℝ) < 1e-200 := by norm_num
            linarith
          have hclamp : max (mag2 z) 1e-300 = mag2 z := by
            have h1 : (1e-300 : ℝ) ≤ mag2 z := by
              have : (1e-300 : ℝ) < 1e-200 := by norm_num
              linarith
            exact max_eq_left h1
          simp only [hz, hc2, hclamp, true_and, and_true, if_true, eq_self_iff_true]
          have harg1 : S + (nm1Half * Real.log (mag2 z) + logn)
              = S + (logn + nm1Half * Real.log (mag2 z)) := by ring
          have harg2 : (C : ℝ) + 1 = ((C + 1 : ℕ) : ℝ) := by push_cast; ring
          rw [harg1, harg2]
          exact ih (i + 1) _ (C + 1) (f z) r2 hmags' (by omega)

/-- Counterexample to claim C4: for the origin-centred quadratic Julia
set with `c = 0`, pixel `(1e-150, 0)` and cap 1, the first iterate has
`|z|² = 1e-300`, which is positive (so the scalar path accumulates a
Lyapunov term) but below the vector path's `1e-200` accumulation
threshold (so the lane accumulates nothing): lane 0 of the AVX Lyapunov
kernel returns 0 while the scalar Lyapunov is about `-344`. -/
theorem c4_lyapunov_equiv_counterexample :
    laneLyap (avx_kernel_lane true false false false false true 1e-150 1 0 1 0 0 0)
      ≠ (scalar_lyapunov_iter ⟨0, 0, 1, FormulaType.Standard, true, 2, 3⟩ 1e-150 0).2 := by
  have hlane : laneLyap (avx_kernel_lane true false false false false true 1e-150 1 0 1 0 0 0)
      = 0 := by
    norm_num [avx_kernel_lane, laneRun, laneStep, laneInit, laneLyap]
  have hscalar : (scalar_lyapunov_iter ⟨0, 0, 1, FormulaType.Standard, true, 2, 3⟩ 1e-150 0).2
      = Real.log 2 + 0.5 * Real.log 1e-300 := by
    norm_num [scalar_lyapunov_iter, lyapAux, exp_n, lyapStep, mag2]
  rw [hlane, hscalar]
  have hlog2 : Real.log 2 < 0.6931471808 := Real.log_two_lt_d9
  have hexp2 : Real.exp 2 < 8 := by
    have h1 : Real.exp 1 < 2.7182818286 := Real.exp_one_lt_d9
    have h2 : Real.exp 2 = Real.exp 1 * Real.exp 1 := by
      rw [← Real.exp_add]
      norm_num
    have h3 : 0 < Real.exp 1 := Real.exp_pos 1
    nlinarith
  have hsmall : Real.log (1e-300 : ℝ) < -2 := by
    rw [Real.log_lt_iff_lt_exp (by norm_num), Real.exp_neg]
    rw [show (1e-300 : ℝ) = (1e300 : ℝ)⁻¹ by norm_num]
    rw [inv_lt_inv₀ (by norm_num) (Real.exp_pos 2)]
    linarith
  intro hcontra
  nlinarith

/-- Claim C4 (amended): the vector Lyapunov lane accumulates a term at
exactly the iterations where the scalar path does AND `|z|² > 1e-200`;
consequently, for any point whose iterates within the cap all have
squared magnitude either 0 or above `1e-200` (where the documented
`1e-300` log clamp is also inert), the per-lane Lyapunov exponent
equals the scalar one for every formula and seeding mode (any shared
z-update `f`).  Below that threshold the two differ (see the
counterexample). -/
theorem c4_lyapunov_equiv (f : ℝ × ℝ → ℝ × ℝ) (logn nm1Half : ℝ) (K : ℕ) (z0 : ℝ × ℝ)
    (h : ∀ j < K, mag2 (fOrbit f z0 j) = 0 ∨ mag2 (fOrbit f z0 j) > 1e-200) :
    laneLyap (laneRun f true logn nm1Half K (laneInit z0))
      = (lyapAux f logn nm1Half K 0 0 0 z0).2 := by
  have hinit : laneInit z0 = ⟨z0.1, z0.2, true, ((0 : ℕ) : ℝ), 4, 0, ((0 : ℕ) : ℝ)⟩ := by
    simp [laneInit]
  rw [hinit]
  exact laneRun_lyap_eq f logn nm1Half K 0 0 0 z0 4 h (fun _ => rfl)

/-- Witness for C4 at a point whose single checked iterate has a large
magnitude. -/
theorem c4_lyapunov_equiv_witness :
    (∀ j < 1, mag2 (fOrbit (quadStep false false false false (0, 0)) (3, 0) j) = 0 ∨
        mag2 (fOrbit (quadStep false false false false (0, 0)) (3, 0) j) > 1e-200) ∧
      laneLyap (laneRun (quadStep false false false false (0, 0)) true (Real.log 2) 0.5 1
          (laneInit (3, 0)))
        = (lyapAux (quadStep false false false false (0, 0)) (Real.log 2) 0.5 1 0 0 0 (3, 0)).2 := by
  have hm : ∀ j < 1, mag2 (fOrbit (quadStep false false false false ((0 : ℝ), (0 : ℝ))) (3, 0) j) = 0 ∨
      mag2 (fOrbit (quadStep false false false false ((0 : ℝ), (0 : ℝ))) (3, 0) j) > 1e-200 := by
    intro j hj
    interval_cases j
    right
    simp [fOrbit, mag2]
    norm_num
  exact ⟨hm, c4_lyapunov_equiv (quadStep false false false false (0, 0)) (Real.log 2) 0.5 1
    (3, 0) hm⟩

/-- `std::round`: round half away from zero. -/
noncomputable def roundAway (x : ℝ) : ℤ :=
  if 0 ≤ x then ⌊x + 1 / 2⌋ else ⌈x - 1 / 2⌉

/-- The `slow_int_n` promotion of `CpuRenderer::render_tile`
(`cpu_renderer.cpp`): for the MultiSlow formula, if the real exponent is
within `1e-9` of an integer that rounds to at least 2, promote to that
integer; otherwise 0 (no promotion).  The single value computed here is
used by both the AVX dispatch and the scalar remainder loop of the same
tile. -/
noncomputable def slow_int_n (isMultiSlow : Bool) (exp_f : ℝ) : ℤ :=
  if isMultiSlow = false then 0
  else
    let n := roundAway exp_f
    if 2 ≤ n ∧ |exp_f - (n : ℝ)| < 1e-9 then n else 0

/-- The identical promotion recomputed inside `avx_lyapunov_4`
(`cpu_renderer_avx.cpp` lines 472-476). -/
noncomputable def slow_int_n_lyap (isMultiSlow : Bool) (exp_f : ℝ) : ℤ :=
  if isMultiSlow = false then 0
  else
    let n := roundAway exp_f
    if 2 ≤ n ∧ |exp_f - (n : ℝ)| < 1e-9 then n else 0

lemma roundAway_of_near (x : ℝ) (m : ℤ) (hm : 1 ≤ m) (h : |x - (m : ℝ)| < 1e-9) :
    roundAway x = m := by
  have hb := abs_lt.mp h
  have hx0 : (0 : ℝ) ≤ x := by
    have : (1 : ℝ) ≤ (m : ℝ) := by exact_mod_cast hm
    linarith
  unfold roundAway
  rw [if_pos hx0]
  rw [Int.floor_eq_iff]
  constructor
  · linarith
  · linarith


/-- Counterexample to claim C6: the exponent `1.0` is within `1e-9` of
an integer, yet the dispatch does not promote (`slow_int_n` requires the
rounded integer to be at least 2 and returns 0 here, keeping the
transcendental path). -/
theorem c6_promotion_counterexample :
    (∃ m : ℤ, |(1 : ℝ) - (m : ℝ)| < 1e-9) ∧ slow_int_n true 1 = 0 := by
  constructor
  · exact ⟨1, by norm_num⟩
  · have hr : roundAway (1 : ℝ) = 1 := roundAway_of_near 1 1 le_rfl (by norm_num)
    unfold slow_int_n
    rw [if_neg (by simp)]
    simp only [hr]
    rw [if_neg]
    intro hcontra
    omega

/-- Claim C6 (amended): the promotion decision recomputed in the vector
Lyapunov dispatch is the same function as the one shared by the AVX and
scalar paths of `render_tile`, and promotion happens exactly when the
real exponent is within `1e-9` of an integer `m ≥ 2`, in which case the
promoted integer is that `m`.  Exponents within `1e-9` of an integer
below 2 (e.g. `1.0`) are not promoted, contrary to the claim as stated
(see the counterexample). -/
theorem c6_promotion (b : Bool) (exp_f : ℝ) (m : ℤ) (hm : 2 ≤ m)
    (hnear : |exp_f - (m : ℝ)| < 1e-9) :
    slow_int_n b exp_f = slow_int_n_lyap b exp_f ∧
      slow_int_n true exp_f = m ∧
      (∀ y : ℝ, slow_int_n true y ≠ 0 ↔ ∃ k : ℤ, 2 ≤ k ∧ |y - (k : ℝ)| < 1e-9) := by
  refine ⟨rfl, ?_, ?_⟩
  · have hr : roundAway exp_f = m := roundAway_of_near exp_f m (by omega) hnear
    unfold slow_int_n
    rw [if_neg (by simp)]
    simp only [hr]
    rw [if_pos ⟨hm, hnear⟩]
  · intro y
    constructor
    · intro hne
      unfold slow_int_n at hne
      rw [if_neg (by simp)] at hne
      by_cases hcond : 2 ≤ roundAway y ∧ |y - ((roundAway y : ℤ) : ℝ)| < 1e-9
      · exact ⟨roundAway y, hcond⟩
      · rw [if_neg hcond] at hne
        exact absurd rfl hne
    · rintro ⟨k, hk2, hknear⟩
      have hr : roundAway y = k := roundAway_of_near y k (by omega) hknear
      unfold slow_int_n
      rw [if_neg (by simp)]
      simp only [hr]
      rw [if_pos ⟨hk2, hknear⟩]
      omega

/-- Witness for C6 at exponent `5.0`, promoted integer 5. -/
theorem c6_promotion_witness :
    ((2 : ℤ) ≤ 5 ∧ |(5 : ℝ) - ((5 : ℤ) : ℝ)| < 1e-9) ∧
      (slow_int_n true 5 = slow_int_n_lyap true 5 ∧
        slow_int_n true 5 = 5 ∧
        (∀ y : ℝ, slow_int_n true y ≠ 0 ↔ ∃ k : ℤ, 2 ≤ k ∧ |y - (k : ℝ)| < 1e-9)) := by
  refine ⟨⟨by norm_num, by norm_num⟩, ?_⟩
  exact c6_promotion true 5 5 (by norm_num) (by norm_num)

/-- Tile origins generated by `for (pos = 0; pos < limit; pos += 64)`
(`cpu_renderer.cpp`, `CpuRenderer::render`, with `TILE_W = TILE_H =
64`). -/
def tileStarts (limit : ℕ) (pos : ℕ) : List ℕ :=
  if pos < limit then pos :: tileStarts limit (pos + 64) else []
termination_by limit - pos
decreasing_by omega

/-- A tile rectangle: origin and extent in pixels. -/
@[ext]
structure Tile where
  x : ℕ
  y : ℕ
  w : ℕ
  h : ℕ
deriving DecidableEq

/-- The tile list of one render pass (`CpuRenderer::render`): every
64-aligned origin inside the raster, with the last row/column clipped by
`min 64 (bound - origin)`. -/
def tiles (W H : ℕ) : List Tile :=
  (tileStarts H 0).flatMap fun ty =>
    (tileStarts W 0).map fun tx => ⟨tx, ty, min 64 (W - tx), min 64 (H - ty)⟩

/-- Pixel `(px, py)` lies inside the tile rectangle, i.e. is written by
the `render_tile` loops `for py in [ty, min(ty+th, H))`, `for px in
[tx, min(tx+tw, W))` (with `tw, th` already clipped). -/
def inTile (t : Tile) (px py : ℕ) : Prop :=
  t.x ≤ px ∧ px < t.x + t.w ∧ t.y ≤ py ∧ py < t.y + t.h

instance (t : Tile) (px py : ℕ) : Decidable (inTile t px py) := by
  unfold inTile
  infer_instance

lemma mem_tileStarts (limit : ℕ) : ∀ (gas pos t : ℕ), limit - pos ≤ gas →
    (t ∈ tileStarts limit pos ↔ pos ≤ t ∧ t < limit ∧ (t - pos) % 64 = 0) := by
  intro gas
  induction gas with
  | zero =>
      intro pos t hg
      have h : ¬ pos < limit := by omega
      rw [tileStarts, if_neg h]
      simp
      omega
  | succ g ih =>
      intro pos t hg
      by_cases h : pos < limit
      · rw [tileStarts, if_pos h]
        rw [List.mem_cons, ih (pos + 64) t (by omega)]
        omega
      · rw [tileStarts, if_neg h]
        simp
        omega

lemma mem_tileStarts_zero (limit t : ℕ) :
    t ∈ tileStarts limit 0 ↔ t < limit ∧ t % 64 = 0 := by
  rw [mem_tileStarts limit limit 0 t (by omega)]
  omega

lemma mem_tiles (W H : ℕ) (t : Tile) :
    t ∈ tiles W H ↔
      t.x < W ∧ t.x % 64 = 0 ∧ t.y < H ∧ t.y % 64 = 0 ∧
        t.w = min 64 (W - t.x) ∧ t.h = min 64 (H - t.y) := by
  unfold tiles
  rw [List.mem_flatMap]
  constructor
  · rintro ⟨ty, hty, hmem⟩
    rw [List.mem_map] at hmem
    obtain ⟨tx, htx, rfl⟩ := hmem
    rw [mem_tileStarts_zero] at hty htx
    exact ⟨htx.1, htx.2, hty.1, hty.2, rfl, rfl⟩
  · rintro ⟨hx, hx64, hy, hy64, hw, hh⟩
    refine ⟨t.y, ?_, ?_⟩
    · rw [mem_tileStarts_zero]
      exact ⟨hy, hy64⟩
    · rw [List.mem_map]
      refine ⟨t.x, ?_, ?_⟩
      · rw [mem_tileStarts_zero]
        exact ⟨hx, hx64⟩
      · cases t
        simp_all

/-- Claim C7: for every raster with `W ≥ 1`, `H ≥ 1` and the fixed
64×64 tile size, every pixel `(x, y)` of the raster lies in exactly one
generated tile: the tile rectangles partition the pixel grid with no
gaps and no overlaps. -/
theorem c7_tile_partition (W H x y : ℕ) (hx : x < W) (hy : y < H) :
    ∃! t : Tile, t ∈ tiles W H ∧ inTile t x y := by
  have hdx := Nat.div_add_mod x 64
  have hdy := Nat.div_add_mod y 64
  have hmx : x % 64 < 64 := Nat.mod_lt x (by omega)
  have hmy : y % 64 < 64 := Nat.mod_lt y (by omega)
  refine ⟨⟨64 * (x / 64), 64 * (y / 64),
    min 64 (W - 64 * (x / 64)), min 64 (H - 64 * (y / 64))⟩, ⟨?_, ?_⟩, ?_⟩
  · rw [mem_tiles]
    dsimp only
    exact ⟨by omega, by omega, by omega, by omega, rfl, rfl⟩
  · unfold inTile
    simp only
    omega
  · rintro t ⟨hmem, hin⟩
    rw [mem_tiles] at hmem
    obtain ⟨htxW, htx64, htyH, hty64, htw, hth⟩ := hmem
    unfold inTile at hin
    obtain ⟨h1, h2, h3, h4⟩ := hin
    ext
    · show t.x = 64 * (x / 64)
      omega
    · show t.y = 64 * (y / 64)
      omega
    · show t.w = min 64 (W - 64 * (x / 64))
      rw [htw]
      have : t.x = 64 * (x / 64) := by omega
      rw [this]
    · show t.h = min 64 (H - 64 * (y / 64))
      rw [hth]
      have : t.y = 64 * (y / 64) := by omega
      rw [this]

/-- Witness for C7 on a 100×70 raster at pixel `(70, 65)`. -/
theorem c7_tile_partition_witness :
    (70 < 100 ∧ 65 < 70) ∧ ∃! t : Tile, t ∈ tiles 100 70 ∧ inTile t 70 65 :=
  ⟨⟨by norm_num, by norm_num⟩, c7_tile_partition 100 70 70 65 (by norm_num) (by norm_num)⟩

/-- The effect of one tile task on the raster: it writes, at every pixel
of its own rectangle, a value that depends only on the pixel coordinate
(and the immutable configuration baked into `pix`), and leaves every
other pixel untouched (`CpuRenderer::render_tile`; that the value per
pixel is independent of the tile holding it is the scalar/vector
equivalence proved in `laneRun_smooth_eq`). -/
def applyTile (pix : ℕ → ℕ → ℕ) (t : Tile) (buf : ℕ → ℕ → ℕ) : ℕ → ℕ → ℕ :=
  fun x y => if inTile t x y then pix x y else buf x y

/-- Executing the submitted tile tasks in some sequential order
(`pool->submit` of one task per tile followed by `pool->wait()`; tiles
write disjoint pixel sets, so any parallel interleaving of the writes
agrees with some sequential order, and in fact with every one). -/
def renderFold (pix : ℕ → ℕ → ℕ) (ts : List Tile) (buf : ℕ → ℕ → ℕ) : ℕ → ℕ → ℕ :=
  ts.foldl (fun b t => applyTile pix t b) buf

/-- The raster after a pass: each pixel covered by some tile holds its
per-pixel value, the rest keep their old contents — independently of the
tile order. -/
lemma renderFold_char (pix : ℕ → ℕ → ℕ) :
    ∀ (ts : List Tile) (buf : ℕ → ℕ → ℕ) (x y : ℕ),
      renderFold pix ts buf x y =
        if ∃ t ∈ ts, inTile t x y then pix x y else buf x y := by
  intro ts
  induction ts with
  | nil => intro buf x y; simp [renderFold]
  | cons t ts ih =>
      intro buf x y
      show renderFold pix ts (applyTile pix t buf) x y = _
      rw [ih (applyTile pix t buf) x y]
      unfold applyTile
      by_cases h1 : ∃ u ∈ ts, inTile u x y
      · rw [if_pos h1, if_pos ?_]
        exact ⟨h1.choose, List.mem_cons_of_mem t h1.choose_spec.1, h1.choose_spec.2⟩
      · rw [if_neg h1]
        by_cases h2 : inTile t x y
        · rw [if_pos h2, if_pos ⟨t, List.mem_cons_self t ts, h2⟩]
        · rw [if_neg h2, if_neg ?_]
          rintro ⟨u, hu, huin⟩
          rcases List.mem_cons.mp hu with rfl | hu'
          · exact h2 huin
          · exact h1 ⟨u, hu', huin⟩

/-- Claim C9: executing the scheduler's tile list in any order (any
permutation — covering every assignment of tiles to 1 or N workers and
every interleaving, since the rectangles are pixel-disjoint) produces
the identical raster function: the output is a deterministic function of
the per-pixel value map and the raster dimensions. -/
theorem c9_thread_determinism (pix : ℕ → ℕ → ℕ) (buf : ℕ → ℕ → ℕ) (W H : ℕ)
    (ts : List Tile) (hperm : ts.Perm (tiles W H)) :
    renderFold pix ts buf = renderFold pix (tiles W H) buf := by
  funext x y
  rw [renderFold_char, renderFold_char]
  by_cases h : ∃ t ∈ tiles W H, inTile t x y
  · rw [if_pos h, if_pos ?_]
    exact ⟨h.choose, (hperm.mem_iff).mpr h.choose_spec.1, h.choose_spec.2⟩
  · rw [if_neg h, if_neg ?_]
    rintro ⟨u, hu, huin⟩
    exact h ⟨u, (hperm.mem_iff).mp hu, huin⟩

/-- Witness for C9: the reversed tile list of a 100×70 raster renders
the same raster as the scheduler's order. -/
theorem c9_thread_determinism_witness :
    ((tiles 100 70).reverse.Perm (tiles 100 70)) ∧
      renderFold (fun x y => x + y) (tiles 100 70).reverse (fun _ _ => 0)
        = renderFold (fun x y => x + y) (tiles 100 70) (fun _ _ => 0) :=
  ⟨(tiles 100 70).reverse_perm,
    c9_thread_determinism (fun x y => x + y) (fun _ _ => 0) 100 70
      (tiles 100 70).reverse (tiles 100 70).reverse_perm⟩

/-- C++ `static_cast<int>` on a double: truncation toward zero. -/
noncomputable def ctrunc (x : ℝ) : ℤ := if 0 ≤ x then ⌊x⌋ else ⌈x⌉

/-- The two-step wrap of `palette_color` / `lyapunov_color`
(`palette.hpp`): C++ `%` (truncated remainder) by `LUT_SIZE = 1024`,
then `+ 1024` if negative. -/
def wrapIdx (a : ℤ) : ℤ :=
  let r := Int.tmod a 1024
  if r < 0 then r + 1024 else r

/-- `palette_color` (`palette.hpp` lines 39-48) with the palette's LUT
row passed explicitly (the source reads the global
`g_palette_lut[palette]`): interior sentinel for `smooth >= max_iter`,
otherwise a wrapped lookup at index `int(smooth*40) + pal_offset`. -/
noncomputable def palette_color (lutRow : ℕ → ℕ) (smooth : ℝ) (max_iter pal_offset : ℤ) : ℕ :=
  if smooth ≥ (max_iter : ℝ) then 0xFF000000
  else lutRow (wrapIdx (ctrunc (smooth * 40) + pal_offset)).toNat

/-- `lyapunov_color` (`palette.hpp` lines 51-58): wrapped lookup at
index `int(lambda * 200) + pal_offset`. -/
noncomputable def lyapunov_color (lutRow : ℕ → ℕ) (lambda : ℝ) (pal_offset : ℤ) : ℕ :=
  lutRow (wrapIdx (ctrunc (lambda * 200) + pal_offset)).toNat

/-- Row 6 of the lookup table, the Zebra palette (`palette.cpp` lines
126-131): 8 alternating black/white bands of 128 entries. -/
def zebraRow (i : ℕ) : ℕ :=
  if (i / 128) % 2 = 0 then 0xFF000000 else 0xFFFFFFFF

lemma wrapIdx_bounds (a : ℤ) : 0 ≤ wrapIdx a ∧ wrapIdx a < 1024 := by
  have hub : Int.tmod a 1024 < 1024 := Int.tmod_lt_of_pos a (by norm_num)
  have hlb : -1024 < Int.tmod a 1024 := by
    cases a with
    | ofNat m =>
        have h : Int.tmod (Int.ofNat m) 1024 = Int.ofNat (m % 1024) := rfl
        rw [h, Int.ofNat_eq_natCast]
        omega
    | negSucc m =>
        have h : Int.tmod (Int.negSucc m) 1024 = -Int.ofNat ((m + 1) % 1024) := rfl
        have hm : (m + 1) % 1024 < 1024 := Nat.mod_lt _ (by norm_num)
        rw [h, Int.ofNat_eq_natCast]
        omega
  unfold wrapIdx
  by_cases h : Int.tmod a 1024 < 0
  · rw [if_pos h]
    omega
  · rw [if_neg h]
    omega

/-- Counterexample to claim C10: `palette_color` also returns the opaque
black sentinel value for a non-interior pixel, because a LUT entry can
itself be opaque black — here the Zebra palette (id 6) at index 0 with
`smooth = 0 < max_iter = 256`.  So the sentinel is returned `if`, not
`exactly when`, `smooth >= max_iter`. -/
theorem c10_palette_counterexample :
    palette_color zebraRow 0 256 0 = 0xFF000000 ∧ ¬ ((0 : ℝ) ≥ ((256 : ℤ) : ℝ)) := by
  constructor
  · unfold palette_color
    rw [if_neg (by norm_num)]
    have h1 : ctrunc ((0 : ℝ) * 40) = 0 := by
      unfold ctrunc
      norm_num
    rw [h1]
    have h2 : wrapIdx 0 = 0 := by
      unfold wrapIdx
      norm_num
    norm_num [h2, zebraRow]
  · norm_num

/-- Claim C10 (amended): `palette_color` returns the opaque-black
sentinel whenever `smooth ≥ max_iter` (but possibly also below it, when
the palette row itself holds opaque black); otherwise it returns the
LUT row at an index always wrapped into `[0, 1024)`, for every real
smooth value and every integer offset; `lyapunov_color` likewise always
reads a wrapped index in `[0, 1024)`. -/
theorem c10_palette_safety :
    (∀ (row : ℕ → ℕ) (s : ℝ) (mi off : ℤ), s ≥ (mi : ℝ) →
      palette_color row s mi off = 0xFF000000) ∧
    (∀ (row : ℕ → ℕ) (s : ℝ) (mi off : ℤ), ¬ s ≥ (mi : ℝ) →
      palette_color row s mi off = row (wrapIdx (ctrunc (s * 40) + off)).toNat ∧
        0 ≤ wrapIdx (ctrunc (s * 40) + off) ∧ wrapIdx (ctrunc (s * 40) + off) < 1024) ∧
    (∀ (row : ℕ → ℕ) (lam : ℝ) (off : ℤ),
      lyapunov_color row lam off = row (wrapIdx (ctrunc (lam * 200) + off)).toNat ∧
        0 ≤ wrapIdx (ctrunc (lam * 200) + off) ∧ wrapIdx (ctrunc (lam * 200) + off) < 1024) := by
  refine ⟨?_, ?_, ?_⟩
  · intro row s mi off h
    unfold palette_color
    rw [if_pos h]
  · intro row s mi off h
    refine ⟨?_, (wrapIdx_bounds _).1, (wrapIdx_bounds _).2⟩
    unfold palette_color
    rw [if_neg h]
  · intro row lam off
    exact ⟨rfl, (wrapIdx_bounds _).1, (wrapIdx_bounds _).2⟩

/-- Witness for C10 on the interior branch with `smooth = 300 ≥ 256`. -/
theorem c10_palette_safety_witness :
    ((300 : ℝ) ≥ ((256 : ℤ) : ℝ)) ∧ palette_color zebraRow 300 256 7 = 0xFF000000 :=
  ⟨by norm_num, c10_palette_safety.1 zebraRow 300 256 7 (by norm_num)⟩

end Fractal
